import Mathlib

/-!
Shallow embedding of the virus-wars simulation core (Rust sources:
`src/main.rs`, `src/components.rs`, `src/resources.rs`,
`src/systems/packet.rs`, `src/systems/ai.rs`, `src/systems/interaction.rs`).

Machine `f32` health/cooldown values are embedded as `ℚ`: every operation the
code performs on them (addition, subtraction, `min`, order comparisons with
the small constants involved) is exact, and the claims are order/bound
claims.  Node handles (`petgraph::NodeIndex`) are embedded as `ℕ`.
`HashSet` target sets and `HashMap` flow maps are embedded as duplicate-free
lists resp. association lists, which preserves the presence/absence of keys
(the code distinguishes an absent flow-map entry from an empty one).
-/

namespace VirusWars

/-- Balance constants from `main.rs` (the crate root that the `systems/`
modules import them from): `PACKET_SPEED = 1.0`, `NODE_MAX_HP = 100.0`,
`PACKET_POWER = 1.0`, `SPAWN_INTERVAL = 0.1`. -/
def PACKET_SPEED : ℚ := 1

def NODE_MAX_HP : ℚ := 100

def PACKET_POWER : ℚ := 1

def SPAWN_INTERVAL : ℚ := 1 / 10

/-- `Owner` from `components.rs`. -/
inductive Owner : Type
  | Neutral : Owner
  | Player : Owner
  | Enemy : Owner
deriving DecidableEq, Repr

/-- `GameNode` from `components.rs`: graph handle, health, owner, the
transient per-node target set (`HashSet<NodeIndex>`), and the emission
timer, embedded by its current duration (the only timer field the
emission logic writes). -/
structure GameNode : Type where
  index : ℕ
  hp : ℚ
  owner : Owner
  targets : List ℕ
  timerDuration : ℚ
deriving DecidableEq, Repr

/-- `Packet` from `components.rs`.  `edge_len` is the straight-line distance
between the endpoints, an `f32` square root; it is carried opaquely here
(none of the verified claims depend on its value). -/
structure Packet : Type where
  source : ℕ
  dest : ℕ
  owner : Owner
  progress : ℚ
  edgeLen : ℚ
deriving DecidableEq, Repr

/-- `process_hit` from `systems/packet.rs` (lines 130-141): heal when the
packet owner matches the node owner, capped at `NODE_MAX_HP`; otherwise
subtract the packet power and, when the result is `≤ 0`, capture: flip the
owner, reset health to `10`, clear the node's transient target set. -/
def process_hit (node : GameNode) (packetOwner : Owner) : GameNode :=
  if node.owner = packetOwner then
    { node with hp := min (node.hp + PACKET_POWER) NODE_MAX_HP }
  else if node.hp - PACKET_POWER ≤ 0 then
    { node with owner := packetOwner, hp := 10, targets := [] }
  else
    { node with hp := node.hp - PACKET_POWER }

/-- The player's persistent flow directive map (`FlowMap` from resources.rs:
`HashMap<NodeIndex, HashSet<NodeIndex>>`), embedded as an association list so
that an absent key is distinguished from an empty set. -/
def FlowMapL : Type := List (ℕ × List ℕ)

/-- Lookup of a flow-map entry (`flow_map.flows.get(&idx)`). -/
def flowLookup (m : FlowMapL) (u : ℕ) : Option (List ℕ) :=
  match m with
  | [] => none
  | (k, ts) :: rest => if k = u then some ts else flowLookup rest u

/-- The target list stored for `u`, defaulting to empty when the key is
absent. -/
def flowTargets (m : FlowMapL) (u : ℕ) : List ℕ :=
  (flowLookup m u).getD []

/-- The world state relevant to packet-arrival resolution: the node records
and the flow directive map.  `move_packets` in `systems/packet.rs` receives
no `FlowMap` parameter at all; threading the whole state through the
embedded resolution step makes that visible as "the flow map component is
returned unchanged". -/
structure World : Type where
  nodes : List GameNode
  flowMap : FlowMapL

/-- Packet-arrival resolution as performed by `move_packets` on
`progress >= 1.0` (lines 118-126 of `systems/packet.rs`): the destination
node record is updated through `process_hit`; nothing else in the world is
touched. -/
def resolveArrival (w : World) (dest : ℕ) (packetOwner : Owner) : World :=
  { w with
    nodes := w.nodes.map fun n =>
      if n.index = dest then process_hit n packetOwner else n }

/-! ### Flow-map editing (`handle_interaction`, `systems/interaction.rs`) -/

/-- Insert `v` into the target set of `u`
(`flow_map.flows.entry(current_node).or_default(); entry.insert(next_node)`):
create the entry with `[v]` when the key is absent, otherwise add `v` to the
stored set if it is not already present. -/
def flowAdd (m : FlowMapL) (u v : ℕ) : FlowMapL :=
  match m with
  | [] => [(u, [v])]
  | (k, ts) :: rest =>
    if k = u then (k, if v ∈ ts then ts else ts ++ [v]) :: rest
    else (k, ts) :: flowAdd rest u v

/-- The consecutive pairs of a path (`state.path.windows(2)`). -/
def pathPairs : List ℕ → List (ℕ × ℕ)
  | a :: b :: rest => (a, b) :: pathPairs (b :: rest)
  | _ => []

/-- The add-mode secondary edit (`systems/interaction.rs` lines 87-115 with
`is_erasing = false`): for every consecutive pair `(u, v)` of the displayed
path, insert `v` into `flow_map[u]`. -/
def applyAddEdit (m : FlowMapL) (path : List ℕ) : FlowMapL :=
  (pathPairs path).foldl (fun acc p => flowAdd acc p.1 p.2) m

/-! ### Graph neighborhood and the per-tick active target set
(`spawn_packets`, `systems/packet.rs` lines 39-58) -/

/-- Generic association-list lookup (embedding `HashMap::get`). -/
def assocLookup {α : Type} (m : List (ℕ × α)) (k : ℕ) : Option α :=
  match m with
  | [] => none
  | (k2, a) :: rest => if k2 = k then some a else assocLookup rest k

/-- Neighbors of `v` in an undirected edge list
(`graph.neighbors(node.index)` on a `petgraph` undirected graph). -/
def neighborsOf (E : List (ℕ × ℕ)) (v : ℕ) : List ℕ :=
  E.filterMap fun e =>
    if e.1 = v then some e.2 else if e.2 = v then some e.1 else none

/-- The per-node owner/health snapshot taken at the top of `spawn_packets`
(`node_states : HashMap<NodeIndex, (Owner, f32)>`). -/
def nodeStates (nodes : List GameNode) : List (ℕ × (Owner × ℚ)) :=
  nodes.map fun n => (n.index, (n.owner, n.hp))

/-- The active target set `spawn_packets` computes for one node
(lines 39-58 of `systems/packet.rs`): a Player node copies its flow-map
entry (empty when absent); an Enemy node takes every neighbor that is not
Enemy-owned plus every Enemy-owned neighbor with health below
`NODE_MAX_HP` (the node's stored `targets` set is not consulted); a
Neutral node gets the empty set. -/
def active_targets (E : List (ℕ × ℕ)) (flows : FlowMapL)
    (states : List (ℕ × (Owner × ℚ))) (node : GameNode) : List ℕ :=
  if node.owner = Owner.Player then flowTargets flows node.index
  else if node.owner = Owner.Enemy then
    (neighborsOf E node.index).filter fun nb =>
      match assocLookup states nb with
      | some (o, h) => decide (o ≠ Owner.Enemy) || decide (h < NODE_MAX_HP)
      | none => false
  else []

/-! ### AI policy (`ai_behavior`, `systems/ai.rs` lines 25-39) -/

/-- One AI-policy firing applied to one node: Enemy nodes clear their
target set; below `30` health they stop there; otherwise
`neighbors.choose(&mut rng)` picks one uniformly random neighbor, embedded
by passing the rng outcome as an arbitrary index `choice` reduced modulo
the neighbor count (`choose` returns `None` exactly on an empty list).
Non-Enemy nodes are untouched. -/
def ai_update (E : List (ℕ × ℕ)) (choice : ℕ) (node : GameNode) : GameNode :=
  if node.owner = Owner.Enemy then
    if node.hp < 30 then { node with targets := [] }
    else
      let nbs := neighborsOf E node.index
      match nbs.get? (choice % nbs.length) with
      | some t => { node with targets := [t] }
      | none => { node with targets := [] }
  else node

/-! ### Packet emission (`spawn_packets`, `systems/packet.rs` lines 60-95) -/

/-- One node's emission step after its timer ticked.  `expired` is
`timer.just_finished()`; `dist` is the Euclidean straight-line distance
between node positions (an `f32` square root, passed abstractly).  On
expiry with a non-empty active set and a non-Neutral owner the node emits
one packet per active target and its timer duration becomes
`SPAWN_INTERVAL * target_count`; otherwise nothing is spawned and the
duration is not rewritten. -/
def spawn_step (dist : ℕ → ℕ → ℚ) (expired : Bool) (node : GameNode)
    (active : List ℕ) : List Packet × GameNode :=
  if expired = true ∧ active ≠ [] ∧ node.owner ≠ Owner.Neutral then
    (active.map fun t =>
      { source := node.index, dest := t, owner := node.owner,
        progress := 0, edgeLen := dist node.index t },
     { node with timerDuration := SPAWN_INTERVAL * active.length })
  else ([], node)

/-! ### Primary select (`handle_interaction`, `systems/interaction.rs`
lines 56-69) -/

/-- Effect of a primary-select (left-click) press on the selected source.
`ownerOf` embeds the `entity_map.nodes.get` / `nodes_q.get` lookup chain,
which can fail (`none`); per the code, a failed lookup and a non-Player
owner both leave the selection untouched, a hit on a Player node replaces
it, and a click on empty space (`hovered = none`) clears it. -/
def primarySelect (hovered : Option ℕ) (ownerOf : ℕ → Option Owner)
    (sel : Option ℕ) : Option ℕ :=
  match hovered with
  | some idx =>
    match ownerOf idx with
    | some o => if o = Owner.Player then some idx else sel
    | none => sel
  | none => none

/-! ### Graph generation (`ComputerGraph::random`, `resources.rs`
lines 39-122, identical to `main.rs` lines 101-189)

Positions are 2-D rational points.  The code compares Euclidean (`f32`,
square-root) distances against constants and against each other; distances
are nonnegative, so every such comparison is equivalent to the comparison
of squared distances, which are exact rationals — the embedding works with
squared distances throughout (`MIN_DIST`, `CONNECT_DIST` and the
`f32::MAX` initializer of the closest-pair scan appear squared). -/

/-- A 2-D position. -/
abbrev Point : Type := ℚ × ℚ

/-- Squared Euclidean distance. -/
def distSq (p q : Point) : ℚ :=
  (p.1 - q.1) ^ 2 + (p.2 - q.2) ^ 2

/-- Generator constants: `NODE_COUNT = 30`, `ATTEMPTS = 20`
(so at most `600` placement attempts), `MIN_DIST = 0.2`,
`CONNECT_DIST = 0.45`. -/
def NODE_COUNT : ℕ := 30

def ATTEMPTS : ℕ := 20

def MIN_DIST : ℚ := 1 / 5

def CONNECT_DIST : ℚ := 9 / 20

/-- `f32::MAX`, the initializer of the closest-pair minimum scan. -/
def F32_MAX : ℚ := (2 - (1 / 2) ^ 23) * 2 ^ 127

/-- Rejection-sampling placement loop (`resources.rs` lines 48-61): each
loop iteration draws one candidate from the rng, embedded as the list
`cands` of successive rng outcomes (the code runs `NODE_COUNT * ATTEMPTS`
iterations, i.e. `cands.length ≤ 600`); a candidate is rejected when a
kept position lies strictly within `MIN_DIST` of it, and the loop stops
once `NODE_COUNT` positions are kept. -/
def placeStep (acc : List Point) (c : Point) : List Point :=
  if NODE_COUNT ≤ acc.length then acc
  else if acc.any fun p => distSq p c < MIN_DIST ^ 2 then acc
  else acc ++ [c]

def placePositions (cands : List Point) : List Point :=
  cands.foldl placeStep []

/-- The ordered pairs `i < j` of node indices (`resources.rs` lines 68-78
iterate `i` then `j in (i+1)..`). -/
def allPairs (n : ℕ) : List (ℕ × ℕ) :=
  (List.range n).flatMap fun i =>
    (List.range n).filterMap fun j => if i < j then some (i, j) else none

/-- The proximity edges: every pair of placed nodes strictly closer than
`CONNECT_DIST`. -/
def proximityEdges (ps : List Point) : List (ℕ × ℕ) :=
  (allPairs ps.length).filter fun e =>
    distSq (ps.getD e.1 default) (ps.getD e.2 default) < CONNECT_DIST ^ 2

/-- Undirected adjacency test in an edge list. -/
def adjacentB (E : List (ℕ × ℕ)) (a b : ℕ) : Bool :=
  E.any fun e => (e.1 = a ∧ e.2 = b) ∨ (e.1 = b ∧ e.2 = a)

/-- One saturation step of the reachable-set computation: add every node of
the graph adjacent to a node already in `s`. -/
def growStep (E : List (ℕ × ℕ)) (n : ℕ) (s : List ℕ) : List ℕ :=
  s ++ (List.range n).filter fun v =>
    decide (v ∉ s) && s.any fun u => adjacentB E u v

/-- The set of nodes the `petgraph::visit::Bfs` traversal started at `v`
visits, i.e. the nodes reachable from `v`, computed by saturating for `n`
steps (enough, as the set can grow at most `n` times). -/
def reach (E : List (ℕ × ℕ)) (n : ℕ) (v : ℕ) : List ℕ :=
  Nat.iterate (growStep E n) n [v]

/-- The component list of `resources.rs` lines 81-94: scan the nodes in
index order; each not-yet-visited node contributes the component of nodes
its BFS visits, all of which become visited. -/
def compsAux (E : List (ℕ × ℕ)) (n : ℕ) : List ℕ → List ℕ → List (List ℕ)
  | [], _ => []
  | v :: rest, visited =>
    if v ∈ visited then compsAux E n rest visited
    else reach E n v :: compsAux E n rest (visited ++ reach E n v)

/-- Connected components, in order of least contained index. -/
def componentsList (E : List (ℕ × ℕ)) (n : ℕ) : List (List ℕ) :=
  compsAux E n (List.range n) []

/-- One comparison of the closest-pair scan (`dist < min_dist`, squared). -/
def scanPair (ps : List Point) (st : ℚ × Option (ℕ × ℕ)) (a b : ℕ) :
    ℚ × Option (ℕ × ℕ) :=
  if distSq (ps.getD a default) (ps.getD b default) < st.1 then
    (distSq (ps.getD a default) (ps.getD b default), some (a, b))
  else st

/-- The candidate pairs scanned by `resources.rs` lines 104-113, in scan
order: islands after the first (outer), nodes of island 0 (middle), nodes
of the other island (inner). -/
def repairCandidates (compA : List ℕ) (compsB : List (List ℕ)) :
    List (ℕ × ℕ) :=
  compsB.flatMap fun islandB => compA.flatMap fun a => islandB.map fun b => (a, b)

/-- The closest-pair scan of `resources.rs` lines 100-114 over the
candidate pairs in scan order; the minimum starts at `f32::MAX` (squared
here) and the best pair at `None`. -/
def bestEdge (ps : List Point) (compA : List ℕ) (compsB : List (List ℕ)) :
    ℚ × Option (ℕ × ℕ) :=
  (repairCandidates compA compsB).foldl
    (fun st p => scanPair ps st p.1 p.2) (F32_MAX ^ 2, none)

/-- The connectivity-repair loop (`resources.rs` lines 80-120): while more
than one component exists, add the closest inter-component edge found by
`bestEdge` (or stop if none was found).  The Rust loop is unbounded; it is
embedded with a fuel of one iteration per node, which the termination
theorem below shows is enough to reach the single-component exit. -/
def repairLoop (ps : List Point) : ℕ → List (ℕ × ℕ) → List (ℕ × ℕ)
  | 0, E => E
  | fuel + 1, E =>
    let comps := componentsList E ps.length
    if comps.length ≤ 1 then E
    else
      match (bestEdge ps (comps.headD []) (comps.drop 1)).2 with
      | some (u, v) => repairLoop ps fuel (E ++ [(u, v)])
      | none => E

/-- The generated graph. -/
structure GenGraph : Type where
  pts : List Point
  edges : List (ℕ × ℕ)

/-- `ComputerGraph::random` after placement: proximity edges plus
connectivity repair over the placed positions. -/
def generateGraph (ps : List Point) : GenGraph :=
  { pts := ps, edges := repairLoop ps ps.length (proximityEdges ps) }

/-- The whole of `ComputerGraph::random`, with the rng candidate stream
passed explicitly: place positions, then build and repair the graph.  The
function is total — the Rust signature `fn random() -> Self` has no error
path. -/
def randomGraph (cands : List Point) : GenGraph :=
  generateGraph (placePositions cands)

/-- Initial owner/health assignment of `setup_game` (`main.rs`
lines 212-231): node `0` is the Player start at `100` hp, node
`node_count - 1` the Enemy start at `100` hp (the Player check comes
first, so a single node is Player-owned), everything else Neutral at `50`
hp. -/
def setupOwnerHp (numNodes : ℕ) (i : ℕ) : Owner × ℚ :=
  if i = 0 then (Owner.Player, 100)
  else if i = numNodes - 1 then (Owner.Enemy, 100)
  else (Owner.Neutral, 50)

/-- A concrete node record used by witnesses and counterexamples. -/
def mkNode (i : ℕ) (hp : ℚ) (o : Owner) (ts : List ℕ) : GameNode :=
  { index := i, hp := hp, owner := o, targets := ts, timerDuration := 1 / 10 }

/-! ## Helper lemmas about the flow-map edit -/

/-- Target-set membership after inserting the same pair. -/
theorem mem_flowTargets_flowAdd_self (m : FlowMapL) (u v : ℕ) :
    v ∈ flowTargets (flowAdd m u v) u := by
  induction m with
  | nil => simp [flowAdd, flowTargets, flowLookup]
  | cons hd tl ih =>
    obtain ⟨k, ts⟩ := hd
    by_cases hk : k = u
    · subst hk
      by_cases hv : v ∈ ts <;> simp [flowAdd, flowTargets, flowLookup, hv]
    · simpa [flowAdd, flowTargets, flowLookup, hk] using ih

/-- Inserting any pair preserves existing target-set membership. -/
theorem mem_flowTargets_flowAdd_mono (m : FlowMapL) (a b u v : ℕ)
    (h : v ∈ flowTargets m u) : v ∈ flowTargets (flowAdd m a b) u := by
  induction m with
  | nil => simp [flowTargets, flowLookup] at h
  | cons hd tl ih =>
    obtain ⟨k, ts⟩ := hd
    by_cases hk : k = a
    · subst hk
      by_cases hku : k = u
      · subst hku
        have h2 : v ∈ ts := by
          simpa [flowTargets, flowLookup] using h
        by_cases hb : b ∈ ts <;>
          simp [flowAdd, flowTargets, flowLookup, hb, h2, List.mem_append]
      · by_cases hb : b ∈ ts <;>
          simpa [flowAdd, flowTargets, flowLookup, hku, hb] using h
    · by_cases hku : k = u
      · subst hku
        simpa [flowAdd, flowTargets, flowLookup, hk] using h
      · simp only [flowTargets, flowLookup, if_neg hku] at h
        have h2 : v ∈ flowTargets tl u := by
          simpa [flowTargets] using h
        simpa [flowAdd, flowTargets, flowLookup, hk, hku] using ih h2

/-- Inserting an already-present pair leaves the map unchanged. -/
theorem flowAdd_eq_of_mem (m : FlowMapL) (u v : ℕ)
    (h : v ∈ flowTargets m u) : flowAdd m u v = m := by
  induction m with
  | nil => simp [flowTargets, flowLookup] at h
  | cons hd tl ih =>
    obtain ⟨k, ts⟩ := hd
    by_cases hk : k = u
    · subst hk
      have h2 : v ∈ ts := by
        simpa [flowTargets, flowLookup] using h
      simp [flowAdd, h2]
    · have h2 : v ∈ flowTargets tl u := by
        simpa [flowTargets, flowLookup, hk] using h
      simp [flowAdd, hk, ih h2]

/-- Folding flow insertions preserves target-set membership. -/
theorem mem_flowTargets_foldl (pairs : List (ℕ × ℕ)) (m : FlowMapL) (u v : ℕ)
    (h : v ∈ flowTargets m u) :
    v ∈ flowTargets (pairs.foldl (fun acc p => flowAdd acc p.1 p.2) m) u := by
  induction pairs generalizing m with
  | nil => simpa using h
  | cons p rest ih =>
    exact ih _ (mem_flowTargets_flowAdd_mono m p.1 p.2 u v h)

/-- After folding flow insertions over a pair list, every pair of the list
is present. -/
theorem all_pairs_mem_foldl (pairs : List (ℕ × ℕ)) (m : FlowMapL) :
    ∀ p ∈ pairs,
      p.2 ∈ flowTargets (pairs.foldl (fun acc q => flowAdd acc q.1 q.2) m) p.1 := by
  induction pairs generalizing m with
  | nil => intro p hp; simp at hp
  | cons q rest ih =>
    intro p hp
    rcases List.mem_cons.mp hp with h | h
    · subst h
      exact mem_flowTargets_foldl rest (flowAdd m p.1 p.2) p.1 p.2
        (mem_flowTargets_flowAdd_self m p.1 p.2)
    · exact ih (flowAdd m q.1 q.2) p h

/-- Folding flow insertions over pairs that are all already present is the
identity. -/
theorem foldl_flowAdd_eq_of_all_mem (pairs : List (ℕ × ℕ)) (m : FlowMapL)
    (h : ∀ p ∈ pairs, p.2 ∈ flowTargets m p.1) :
    pairs.foldl (fun acc q => flowAdd acc q.1 q.2) m = m := by
  induction pairs with
  | nil => rfl
  | cons q rest ih =>
    have hq : q.2 ∈ flowTargets m q.1 := h q (List.mem_cons_self q rest)
    have hrw : flowAdd m q.1 q.2 = m := flowAdd_eq_of_mem m q.1 q.2 hq
    simp only [List.foldl_cons, hrw]
    exact ih fun p hp => h p (List.mem_cons_of_mem q hp)

/-! ## Claim theorems (C1, C3, C5, C7, C10) -/

/-- C1 — the claim fails on the code: a capture flips the owner and resets
health to `10`, but the packet-arrival resolution never touches the flow
directive map (`move_packets` / `process_hit` receive no `FlowMap`), so the
captured node's own flow-map entry is still present afterwards.  Concrete
run: a Player node at health `1` with flow entry `0 ↦ {1}` is hit by an
Enemy packet of power `1`; afterwards `owner = Enemy`, `hp = 10`, and the
flow map still maps `0` to `{1}`. -/
theorem c1_capture_leaves_flow_entry :
    ((resolveArrival
        { nodes := [mkNode 0 1 Owner.Player [3]], flowMap := [(0, [1])] }
        0 Owner.Enemy).nodes.map
        fun n => (n.owner, n.hp)) = [(Owner.Enemy, (10 : ℚ))] ∧
    flowLookup
      (resolveArrival
        { nodes := [mkNode 0 1 Owner.Player [3]], flowMap := [(0, [1])] }
        0 Owner.Enemy).flowMap 0 = some [1] := by
  constructor
  · have hne : Owner.Player ≠ Owner.Enemy := fun h => by cases h
    norm_num [resolveArrival, process_hit, mkNode, PACKET_POWER, NODE_MAX_HP, hne]
  · norm_num [resolveArrival, flowLookup]

/-- C3 — confirmed: the initial health assignment lies in `[0, MAX_HP]`,
and `process_hit` maps any health in `[0, MAX_HP]` back into `(0, MAX_HP]`;
in particular, whenever a damage resolution drives the health to `≤ 0`, the
capture (owner flip and reset to `10`) happens inside the same
`process_hit` call, so non-positive health never survives the resolution
step. -/
theorem c3_health_invariant (node : GameNode) (packetOwner : Owner)
    (h0 : 0 ≤ node.hp) (h1 : node.hp ≤ NODE_MAX_HP) :
    (0 ≤ (process_hit node packetOwner).hp ∧
      (process_hit node packetOwner).hp ≤ NODE_MAX_HP ∧
      0 < (process_hit node packetOwner).hp) ∧
    (node.owner ≠ packetOwner → node.hp - PACKET_POWER ≤ 0 →
      (process_hit node packetOwner).owner = packetOwner ∧
        (process_hit node packetOwner).hp = 10) ∧
    (∀ k i : ℕ, 0 ≤ (setupOwnerHp k i).2 ∧ (setupOwnerHp k i).2 ≤ NODE_MAX_HP) := by
  have hM : NODE_MAX_HP = 100 := rfl
  have hP : PACKET_POWER = 1 := rfl
  rw [hM] at h1
  refine ⟨?_, ?_, ?_⟩
  · unfold process_hit
    split_ifs with h h2 <;> dsimp only <;> rw [hM, hP] at *
    · have hmin : (0 : ℚ) < min (node.hp + 1) 100 := by
        rw [lt_min_iff]
        exact ⟨by linarith, by norm_num⟩
      exact ⟨le_of_lt hmin, min_le_right _ _, hmin⟩
    · exact ⟨by norm_num, by norm_num, by norm_num⟩
    · simp only [not_le] at h2
      exact ⟨by linarith, by linarith, by linarith⟩
  · intro hne hle
    unfold process_hit
    rw [if_neg hne, if_pos hle]
    exact ⟨rfl, rfl⟩
  · intro k i
    unfold setupOwnerHp
    rw [hM]
    split_ifs <;> norm_num

/-- C5 — confirmed: the add-mode secondary edit is idempotent, not a
toggle; applying it twice along the same path gives the same flow map as
applying it once, and after one application every consecutive pair `(u,v)`
of the path has `v` present in `flow_map[u]`. -/
theorem c5_add_edit_idempotent (m : FlowMapL) (path : List ℕ) :
    applyAddEdit (applyAddEdit m path) path = applyAddEdit m path ∧
    ∀ p ∈ pathPairs path, p.2 ∈ flowTargets (applyAddEdit m path) p.1 := by
  have hmem : ∀ p ∈ pathPairs path,
      p.2 ∈ flowTargets (applyAddEdit m path) p.1 :=
    all_pairs_mem_foldl (pathPairs path) m
  exact ⟨foldl_flowAdd_eq_of_all_mem (pathPairs path) (applyAddEdit m path) hmem,
    hmem⟩

/-- C7 — confirmed: a same-owner arrival heals to
`min(health + power, MAX_HP)`, hence never beyond `MAX_HP`. -/
theorem c7_heal_capped (node : GameNode) (packetOwner : Owner)
    (h : node.owner = packetOwner) :
    (process_hit node packetOwner).hp = min (node.hp + PACKET_POWER) NODE_MAX_HP ∧
    (process_hit node packetOwner).hp ≤ NODE_MAX_HP := by
  unfold process_hit
  rw [if_pos h]
  exact ⟨rfl, min_le_right _ _⟩

/-- C10 — confirmed: a primary-select press while hovering a node that the
lookup chain does not resolve to a Player-owned node leaves the source
selection exactly as it was (it is neither replaced nor cleared). -/
theorem c10_nonplayer_click_keeps_selection (hovered : Option ℕ) (idx : ℕ)
    (ownerOf : ℕ → Option Owner) (sel : Option ℕ)
    (hh : hovered = some idx) (ho : ownerOf idx ≠ some Owner.Player) :
    primarySelect hovered ownerOf sel = sel := by
  subst hh
  unfold primarySelect
  cases hcase : ownerOf idx with
  | none => simp [hcase]
  | some o =>
    have hne : o ≠ Owner.Player := by
      intro he; exact ho (by rw [hcase, he])
    simp [hcase, hne]

/-! ## Witnesses for claim theorems with hypotheses -/

/-- Witness for C3 at a concrete node. -/
theorem c3_health_invariant_witness :
    (0 : ℚ) ≤ (mkNode 0 1 Owner.Player []).hp ∧
    (mkNode 0 1 Owner.Player []).hp ≤ NODE_MAX_HP ∧
    0 < (process_hit (mkNode 0 1 Owner.Player []) Owner.Enemy).hp := by
  refine ⟨by norm_num [mkNode], by norm_num [mkNode, NODE_MAX_HP], ?_⟩
  exact (c3_health_invariant (mkNode 0 1 Owner.Player []) Owner.Enemy
    (by norm_num [mkNode]) (by norm_num [mkNode, NODE_MAX_HP])).1.2.2

/-- Witness for C5's pair-membership component at a concrete path. -/
theorem c5_add_edit_idempotent_witness :
    applyAddEdit (applyAddEdit [] [1, 2, 3]) [1, 2, 3] =
      applyAddEdit [] [1, 2, 3] ∧
    2 ∈ flowTargets (applyAddEdit [] [1, 2, 3]) 1 := by
  refine ⟨(c5_add_edit_idempotent [] [1, 2, 3]).1, ?_⟩
  exact (c5_add_edit_idempotent [] [1, 2, 3]).2 (1, 2) (by decide)

/-- Witness for C7: a node at health `99` healed by a same-owner packet of
power `1` ends at exactly `100`. -/
theorem c7_heal_capped_witness :
    (process_hit (mkNode 0 99 Owner.Player []) Owner.Player).hp = 100 := by
  have h := (c7_heal_capped (mkNode 0 99 Owner.Player []) Owner.Player rfl).1
  rw [h]
  norm_num [mkNode, PACKET_POWER, NODE_MAX_HP]

/-- Witness for C10 at a concrete hovered Enemy node. -/
theorem c10_nonplayer_click_keeps_selection_witness :
    primarySelect (some 4) (fun _ => some Owner.Enemy) (some 2) = some 2 := by
  exact c10_nonplayer_click_keeps_selection (some 4) 4
    (fun _ => some Owner.Enemy) (some 2) rfl (by decide)

/-! ## Claim theorems (C2, C6, C8) -/

/-- C2 — the claim fails on the code: `spawn_packets` never reads the
target set the AI policy stored for an Enemy node; it recomputes the
active set greedily from the neighbors.  Concrete run: an Enemy node at
health `20` whose only neighbor is Neutral — the AI policy (health below
`30`) leaves its stored target set empty, yet the emitter's active target
set is the nonempty `{1}`. -/
theorem c2_enemy_active_targets_ignore_ai :
    (ai_update [(0, 1)] 0 (mkNode 0 20 Owner.Enemy [])).targets = [] ∧
    active_targets [(0, 1)] []
      [(0, (Owner.Enemy, 20)), (1, (Owner.Neutral, 50))]
      (mkNode 0 20 Owner.Enemy []) = [1] ∧
    active_targets [(0, 1)] []
      [(0, (Owner.Enemy, 20)), (1, (Owner.Neutral, 50))]
      (mkNode 0 20 Owner.Enemy []) ≠
      (ai_update [(0, 1)] 0 (mkNode 0 20 Owner.Enemy [])).targets := by
  have h1 : (ai_update [(0, 1)] 0 (mkNode 0 20 Owner.Enemy [])).targets = [] := by
    norm_num [ai_update, mkNode]
  have h2 : active_targets [(0, 1)] []
      [(0, (Owner.Enemy, 20)), (1, (Owner.Neutral, 50))]
      (mkNode 0 20 Owner.Enemy []) = [1] := by decide
  refine ⟨h1, h2, ?_⟩
  rw [h1, h2]
  simp

/-- C2 (amended) — the active target set per tick is: for a Player node,
its flow-map entry (empty when absent); for an Enemy node, exactly the
neighbors whose looked-up state is either not Enemy-owned or Enemy-owned
with health strictly below `NODE_MAX_HP` (the AI policy's stored set plays
no role); for a Neutral node, empty. -/
theorem c2_active_targets_characterization (E : List (ℕ × ℕ))
    (flows : FlowMapL) (states : List (ℕ × (Owner × ℚ))) (node : GameNode) :
    (node.owner = Owner.Player →
      active_targets E flows states node = flowTargets flows node.index) ∧
    (node.owner = Owner.Enemy → ∀ t,
      (t ∈ active_targets E flows states node ↔
        t ∈ neighborsOf E node.index ∧
          ∃ o h, assocLookup states t = some (o, h) ∧
            (o ≠ Owner.Enemy ∨ h < NODE_MAX_HP))) ∧
    (node.owner = Owner.Neutral → active_targets E flows states node = []) := by
  refine ⟨?_, ?_, ?_⟩
  · intro hp
    unfold active_targets
    rw [if_pos hp]
  · intro he t
    have hne : node.owner ≠ Owner.Player := by rw [he]; intro h; cases h
    unfold active_targets
    rw [if_neg hne, if_pos he, List.mem_filter]
    constructor
    · rintro ⟨hmem, hcond⟩
      refine ⟨hmem, ?_⟩
      rcases hcase : assocLookup states t with _ | ⟨o, h⟩
      · rw [hcase] at hcond
        simp at hcond
      · rw [hcase] at hcond
        simp only [Bool.or_eq_true, decide_eq_true_eq] at hcond
        exact ⟨o, h, rfl, hcond⟩
    · rintro ⟨hmem, o, h, hcase, hcond⟩
      refine ⟨hmem, ?_⟩
      rw [hcase]
      simp only [Bool.or_eq_true, decide_eq_true_eq]
      exact hcond
  · intro hn
    have hne : node.owner ≠ Owner.Player := by rw [hn]; intro h; cases h
    have hne2 : node.owner ≠ Owner.Enemy := by rw [hn]; intro h; cases h
    unfold active_targets
    rw [if_neg hne, if_neg hne2]

/-- Witness for the amended C2 at a concrete Enemy node with a Neutral
neighbor. -/
theorem c2_active_targets_characterization_witness :
    1 ∈ active_targets [(0, 1)] []
      [(0, (Owner.Enemy, 20)), (1, (Owner.Neutral, 50))]
      (mkNode 0 50 Owner.Enemy []) := by
  have h := (c2_active_targets_characterization [(0, 1)] []
    [(0, (Owner.Enemy, 20)), (1, (Owner.Neutral, 50))]
    (mkNode 0 50 Owner.Enemy [])).2.1 rfl 1
  refine h.mpr ⟨by decide, Owner.Neutral, 50, rfl, Or.inl (by decide)⟩

/-- C6 — confirmed: on cooldown expiry with a non-empty active set and a
non-Neutral owner, exactly one packet is emitted per member of the active
set (the destinations are exactly the set, one each), and the cooldown
duration is reset to `SPAWN_INTERVAL * |active|`; with an empty active set
nothing is spawned and the node (cooldown included) is unchanged. -/
theorem c6_emission_cooldown_scales (dist : ℕ → ℕ → ℚ) (expired : Bool)
    (node : GameNode) (active : List ℕ)
    (he : expired = true) (hne : active ≠ []) (ho : node.owner ≠ Owner.Neutral)
    (hnd : active.Nodup) :
    ((spawn_step dist expired node active).1.map Packet.dest = active) ∧
    (spawn_step dist expired node active).1.length = active.length ∧
    (∀ t ∈ active,
      ((spawn_step dist expired node active).1.map Packet.dest).count t = 1) ∧
    (∀ p ∈ (spawn_step dist expired node active).1,
      p.owner = node.owner ∧ p.source = node.index ∧ p.progress = 0) ∧
    (spawn_step dist expired node active).2.timerDuration =
      SPAWN_INTERVAL * active.length ∧
    (∀ (d2 : ℕ → ℕ → ℚ) (e2 : Bool) (n2 : GameNode),
      spawn_step d2 e2 n2 [] = ([], n2)) := by
  have hcond : expired = true ∧ active ≠ [] ∧ node.owner ≠ Owner.Neutral :=
    ⟨he, hne, ho⟩
  have hmap : (spawn_step dist expired node active).1.map Packet.dest = active := by
    unfold spawn_step
    rw [if_pos hcond]
    show List.map Packet.dest (active.map fun t =>
      { source := node.index, dest := t, owner := node.owner,
        progress := 0, edgeLen := dist node.index t }) = active
    rw [List.map_map]
    show active.map (fun t => t) = active
    simp
  refine ⟨hmap, ?_, ?_, ?_, ?_, ?_⟩
  · have := congrArg List.length hmap
    simpa using this
  · intro t ht
    rw [hmap]
    exact List.count_eq_one_of_mem hnd ht
  · intro p hp
    unfold spawn_step at hp
    rw [if_pos hcond] at hp
    simp only [List.mem_map] at hp
    obtain ⟨t, _, rfl⟩ := hp
    exact ⟨rfl, rfl, rfl⟩
  · unfold spawn_step
    rw [if_pos hcond]
  · intro d2 e2 n2
    unfold spawn_step
    simp

/-- Witness for C6: three targets give a reload of `3 * SPAWN_INTERVAL`,
one target gives `SPAWN_INTERVAL`. -/
theorem c6_emission_cooldown_scales_witness :
    (spawn_step (fun _ _ => 1) true (mkNode 0 100 Owner.Player []) [1, 2, 3]).2.timerDuration
      = 3 * SPAWN_INTERVAL ∧
    (spawn_step (fun _ _ => 1) true (mkNode 0 100 Owner.Player []) [1]).2.timerDuration
      = SPAWN_INTERVAL := by
  constructor
  · have h := (c6_emission_cooldown_scales (fun _ _ => 1) true
      (mkNode 0 100 Owner.Player []) [1, 2, 3] rfl (by decide)
      (by decide) (by decide)).2.2.2.2.1
    rw [h]
    norm_num [SPAWN_INTERVAL, mul_comm]
  · have h := (c6_emission_cooldown_scales (fun _ _ => 1) true
      (mkNode 0 100 Owner.Player []) [1] rfl (by decide)
      (by decide) (by decide)).2.2.2.2.1
    rw [h]
    norm_num

/-- C8 — confirmed: an AI firing clears an Enemy node's target set; below
`30` health the set stays empty, otherwise it becomes a single neighbor
`nbs[choice % nbs.length]` — an arbitrary rng outcome `choice` addresses
the full, unfiltered neighbor list, and every neighbor is realized by some
outcome (the choice ignores the neighbor's ownership and health). -/
theorem c8_ai_single_random_target (E : List (ℕ × ℕ)) (node : GameNode)
    (choice : ℕ) (henemy : node.owner = Owner.Enemy) :
    (node.hp < 30 → (ai_update E choice node).targets = []) ∧
    (¬ node.hp < 30 → neighborsOf E node.index ≠ [] →
      ∃ t, (ai_update E choice node).targets = [t] ∧
        t ∈ neighborsOf E node.index) ∧
    (¬ node.hp < 30 → ∀ t ∈ neighborsOf E node.index,
      ∃ k, (ai_update E k node).targets = [t]) := by
  refine ⟨?_, ?_, ?_⟩
  · intro hlow
    unfold ai_update
    rw [if_pos henemy, if_pos hlow]
  · intro hhigh hne
    unfold ai_update
    rw [if_pos henemy, if_neg hhigh]
    have hlen : 0 < (neighborsOf E node.index).length :=
      List.length_pos.mpr hne
    have hlt : choice % (neighborsOf E node.index).length <
        (neighborsOf E node.index).length := Nat.mod_lt _ hlen
    dsimp only
    rw [List.get?_eq_get hlt]
    exact ⟨_, rfl, List.get_mem _ _ _⟩
  · intro hhigh t ht
    obtain ⟨i, hi⟩ := List.mem_iff_get.mp ht
    refine ⟨i.val, ?_⟩
    unfold ai_update
    rw [if_pos henemy, if_neg hhigh]
    dsimp only
    rw [Nat.mod_eq_of_lt i.isLt, List.get?_eq_get i.isLt]
    rw [show (⟨i.val, i.isLt⟩ : Fin (neighborsOf E node.index).length) = i
      from Fin.ext rfl, hi]

/-- Witness for C8 at a concrete Enemy node with two neighbors. -/
theorem c8_ai_single_random_target_witness :
    ∃ t, (ai_update [(0, 1), (2, 0)] 1 (mkNode 0 80 Owner.Enemy [9])).targets = [t] ∧
      t ∈ neighborsOf [(0, 1), (2, 0)] 0 := by
  exact (c8_ai_single_random_target [(0, 1), (2, 0)]
    (mkNode 0 80 Owner.Enemy [9]) 1 rfl).2.1
    (by norm_num [mkNode]) (by decide)

/-! ## Connectivity development for the generator (C4)

`conn E` is the mathematical reachability relation; `reach E n v` is the
executable BFS-visited set; the lemmas below show they agree and derive
the facts the repair loop needs. -/

/-- Adjacency as a proposition. -/
def adjProp (E : List (ℕ × ℕ)) (a b : ℕ) : Prop := adjacentB E a b = true

/-- Connectivity: the reflexive-transitive closure of adjacency. -/
def conn (E : List (ℕ × ℕ)) : ℕ → ℕ → Prop :=
  Relation.ReflTransGen (adjProp E)

/-- Edge-list wellformedness: endpoints below the node count. -/
def edgesWF (E : List (ℕ × ℕ)) (n : ℕ) : Prop := ∀ e ∈ E, e.1 < n ∧ e.2 < n

theorem adjacentB_comm (E : List (ℕ × ℕ)) (a b : ℕ) :
    adjacentB E a b = adjacentB E b a := by
  induction E with
  | nil => rfl
  | cons e tl ih =>
    show (decide ((e.1 = a ∧ e.2 = b) ∨ (e.1 = b ∧ e.2 = a)) || adjacentB tl a b) =
      (decide ((e.1 = b ∧ e.2 = a) ∨ (e.1 = a ∧ e.2 = b)) || adjacentB tl b a)
    rw [ih]
    congr 1
    exact decide_eq_decide.mpr (by tauto)

theorem adjProp_symmetric (E : List (ℕ × ℕ)) : Symmetric (adjProp E) := by
  intro a b h
  unfold adjProp at h ⊢
  rw [adjacentB_comm]
  exact h

theorem conn_symm {E : List (ℕ × ℕ)} {a b : ℕ} (h : conn E a b) :
    conn E b a :=
  Relation.ReflTransGen.symmetric (adjProp_symmetric E) h

theorem adjProp_lt {E : List (ℕ × ℕ)} {n a b : ℕ} (hE : edgesWF E n)
    (h : adjProp E a b) : a < n ∧ b < n := by
  unfold adjProp adjacentB at h
  rw [List.any_eq_true] at h
  obtain ⟨e, he, hd⟩ := h
  rw [decide_eq_true_eq] at hd
  rcases hd with ⟨h1, h2⟩ | ⟨h1, h2⟩
  · exact ⟨by rw [← h1]; exact (hE e he).1, by rw [← h2]; exact (hE e he).2⟩
  · exact ⟨by rw [← h2]; exact (hE e he).2, by rw [← h1]; exact (hE e he).1⟩

theorem conn_lt {E : List (ℕ × ℕ)} {n v a : ℕ} (hE : edgesWF E n)
    (hv : v < n) (h : conn E v a) : a < n := by
  induction h with
  | refl => exact hv
  | tail _ hadj ih => exact (adjProp_lt hE hadj).2

theorem adjacentB_append_left {E F : List (ℕ × ℕ)} {a b : ℕ}
    (h : adjacentB E a b = true) : adjacentB (E ++ F) a b = true := by
  unfold adjacentB at h ⊢
  rw [List.any_append, h, Bool.true_or]

theorem conn_mono {E F : List (ℕ × ℕ)} {a b : ℕ} (h : conn E a b) :
    conn (E ++ F) a b :=
  Relation.ReflTransGen.mono (fun _ _ hx => adjacentB_append_left hx) h

theorem adjProp_append_singleton (E : List (ℕ × ℕ)) (u v : ℕ) :
    adjProp (E ++ [(u, v)]) u v := by
  unfold adjProp adjacentB
  rw [List.any_append]
  simp

/-! ### Properties of `growStep` and `reach` -/

theorem subset_growStep (E : List (ℕ × ℕ)) (n : ℕ) (s : List ℕ) :
    s ⊆ growStep E n s :=
  fun _ hx => List.mem_append_left _ hx

theorem mem_growStep {E : List (ℕ × ℕ)} {n : ℕ} {s : List ℕ} {x : ℕ}
    (h : x ∈ growStep E n s) :
    x ∈ s ∨ (x < n ∧ x ∉ s ∧ ∃ u ∈ s, adjProp E u x) := by
  unfold growStep at h
  rcases List.mem_append.mp h with h | h
  · exact Or.inl h
  · right
    rw [List.mem_filter] at h
    obtain ⟨hr, hcond⟩ := h
    rw [Bool.and_eq_true, decide_eq_true_eq, List.any_eq_true] at hcond
    exact ⟨List.mem_range.mp hr, hcond.1, hcond.2⟩

theorem growStep_subset_of {E : List (ℕ × ℕ)} {n : ℕ} {s : List ℕ}
    (hs : ∀ x ∈ s, x < n) : ∀ x ∈ growStep E n s, x < n := by
  intro x hx
  rcases mem_growStep hx with h | h
  · exact hs x h
  · exact h.1

theorem growStep_nodup {E : List (ℕ × ℕ)} {n : ℕ} {s : List ℕ}
    (hs : s.Nodup) : (growStep E n s).Nodup := by
  unfold growStep
  refine List.Nodup.append hs (List.Nodup.filter _ (List.nodup_range n)) ?_
  intro x hx hx2
  rw [List.mem_filter, Bool.and_eq_true, decide_eq_true_eq] at hx2
  exact hx2.2.1 hx

theorem nodup_bounded_length_le {s : List ℕ} {n : ℕ} (hnd : s.Nodup)
    (hb : ∀ x ∈ s, x < n) : s.length ≤ n := by
  have hsub : s ⊆ List.range n := fun x hx => List.mem_range.mpr (hb x hx)
  simpa using (hnd.subperm hsub).length_le

theorem growStep_eq_of_length {E : List (ℕ × ℕ)} {n : ℕ} {s : List ℕ}
    (h : (growStep E n s).length = s.length) : growStep E n s = s := by
  unfold growStep at h ⊢
  rw [List.length_append] at h
  have : (List.filter (fun v =>
      decide (v ∉ s) && s.any fun u => adjacentB E u v) (List.range n)).length = 0 := by
    omega
  rw [List.length_eq_zero] at this
  rw [this, List.append_nil]

theorem growStep_length_ge (E : List (ℕ × ℕ)) (n : ℕ) (s : List ℕ) :
    s.length ≤ (growStep E n s).length := by
  unfold growStep
  rw [List.length_append]
  omega

theorem growStep_fixed_iterate {E : List (ℕ × ℕ)} {n : ℕ} {s : List ℕ}
    (h : growStep E n s = s) : ∀ k, (growStep E n)^[k] s = s := by
  intro k
  induction k with
  | zero => rfl
  | succ k ih => rw [Function.iterate_succ_apply, h, ih]

/-- A fixed point of `f` reached after `j` steps absorbs every later
iterate. -/
theorem iterate_fixed_from {α : Type} (f : α → α) (x : α) (j : ℕ)
    (h : f (f^[j] x) = f^[j] x) : ∀ k, j ≤ k → f^[k] x = f^[j] x := by
  intro k hk
  induction k with
  | zero =>
    have : j = 0 := Nat.le_zero.mp hk
    rw [this]
  | succ k ih =>
    rcases Nat.lt_or_ge k j with hlt | hge
    · have : j = k + 1 := by omega
      rw [this]
    · rw [Function.iterate_succ_apply', ih hge, h]

theorem iterate_growStep_nodup {E : List (ℕ × ℕ)} {n : ℕ} {s : List ℕ}
    (hs : s.Nodup) (k : ℕ) : ((growStep E n)^[k] s).Nodup := by
  induction k generalizing s with
  | zero => exact hs
  | succ k ih => rw [Function.iterate_succ_apply]; exact ih (growStep_nodup hs)

theorem iterate_growStep_bounded {E : List (ℕ × ℕ)} {n : ℕ} {s : List ℕ}
    (hs : ∀ x ∈ s, x < n) (k : ℕ) : ∀ x ∈ (growStep E n)^[k] s, x < n := by
  induction k generalizing s with
  | zero => exact hs
  | succ k ih =>
    rw [Function.iterate_succ_apply]
    exact ih (growStep_subset_of hs)

/-- Either some earlier iterate is a fixed point, or the `k`-th iterate
has at least `k + 1` elements. -/
theorem iterate_growStep_progress (E : List (ℕ × ℕ)) (n : ℕ) (v : ℕ) :
    ∀ k, (∃ j ≤ k, growStep E n ((growStep E n)^[j] [v]) = (growStep E n)^[j] [v])
      ∨ k + 1 ≤ ((growStep E n)^[k] [v]).length := by
  intro k
  induction k with
  | zero => right; simp
  | succ k ih =>
    rcases ih with ⟨j, hj, hfix⟩ | hlen
    · exact Or.inl ⟨j, le_trans hj (Nat.le_succ k), hfix⟩
    · by_cases hfix : growStep E n ((growStep E n)^[k] [v]) = (growStep E n)^[k] [v]
      · exact Or.inl ⟨k, Nat.le_succ k, hfix⟩
      · right
        rw [Function.iterate_succ_apply']
        have hge := growStep_length_ge E n ((growStep E n)^[k] [v])
        rcases lt_or_eq_of_le hge with hlt | heq
        · omega
        · exact absurd (growStep_eq_of_length heq.symm) hfix

/-- The `n`-step saturation from a node below `n` is a fixed point of
`growStep`. -/
theorem reach_fixed {E : List (ℕ × ℕ)} {n : ℕ} {v : ℕ} (hv : v < n) :
    growStep E n (reach E n v) = reach E n v := by
  unfold reach
  rcases iterate_growStep_progress E n v n with ⟨j, hj, hfix⟩ | hlen
  · have hrest : (growStep E n)^[n] [v] = (growStep E n)^[j] [v] :=
      iterate_fixed_from (growStep E n) [v] j hfix n hj
    rw [hrest]
    exact hfix
  · exfalso
    have hnd : ((growStep E n)^[n] [v]).Nodup :=
      iterate_growStep_nodup (List.nodup_singleton v) n
    have hb : ∀ x ∈ (growStep E n)^[n] [v], x < n :=
      iterate_growStep_bounded (by simpa using hv) n
    have := nodup_bounded_length_le hnd hb
    omega

theorem mem_reach_self (E : List (ℕ × ℕ)) (n : ℕ) (v : ℕ) :
    v ∈ reach E n v := by
  unfold reach
  have : ∀ k, v ∈ (growStep E n)^[k] [v] := by
    intro k
    induction k with
    | zero => simp
    | succ k ih =>
      rw [Function.iterate_succ_apply']
      exact subset_growStep E n _ ih
  exact this n

theorem reach_sound {E : List (ℕ × ℕ)} {n : ℕ} {v a : ℕ}
    (h : a ∈ reach E n v) : conn E v a ∧ (a < n ∨ a = v) := by
  unfold reach at h
  have main : ∀ k, ∀ x ∈ (growStep E n)^[k] [v], conn E v x ∧ (x < n ∨ x = v) := by
    intro k
    induction k with
    | zero =>
      intro x hx
      rw [Function.iterate_zero_apply, List.mem_singleton] at hx
      subst hx
      exact ⟨Relation.ReflTransGen.refl, Or.inr rfl⟩
    | succ k ih =>
      intro x hx
      rw [Function.iterate_succ_apply'] at hx
      rcases mem_growStep hx with h2 | ⟨hlt, _, u, hu, hadj⟩
      · exact ih x h2
      · exact ⟨Relation.ReflTransGen.tail (ih u hu).1 hadj, Or.inl hlt⟩
  exact main n a h

theorem reach_closed {E : List (ℕ × ℕ)} {n : ℕ} {v : ℕ} (hv : v < n)
    {a b : ℕ} (ha : a ∈ reach E n v) (hb : b < n) (hadj : adjProp E a b) :
    b ∈ reach E n v := by
  by_contra hmem
  have hgrow : b ∈ growStep E n (reach E n v) := by
    unfold growStep
    refine List.mem_append_right _ ?_
    rw [List.mem_filter, Bool.and_eq_true, decide_eq_true_eq, List.any_eq_true]
    exact ⟨List.mem_range.mpr hb, hmem, a, ha, hadj⟩
  rw [reach_fixed hv] at hgrow
  exact hmem hgrow

theorem reach_complete {E : List (ℕ × ℕ)} {n : ℕ} (hE : edgesWF E n)
    {v a : ℕ} (hv : v < n) (h : conn E v a) : a ∈ reach E n v := by
  induction h with
  | refl => exact mem_reach_self E n v
  | tail hconn hadj ih =>
    exact reach_closed hv ih (adjProp_lt hE hadj).2 hadj

theorem mem_reach_iff {E : List (ℕ × ℕ)} {n : ℕ} (hE : edgesWF E n)
    {v : ℕ} (hv : v < n) (a : ℕ) :
    a ∈ reach E n v ↔ conn E v a ∧ a < n := by
  constructor
  · intro h
    obtain ⟨hc, hor⟩ := reach_sound h
    rcases hor with h2 | h2
    · exact ⟨hc, h2⟩
    · exact ⟨hc, h2 ▸ hv⟩
  · intro ⟨hc, _⟩
    exact reach_complete hE hv hc

/-! ### Structure of the component list -/

/-- A node is a component leader when no smaller node is connected to it;
the scan of `componentsList` starts one component per leader. -/
def IsLead (E : List (ℕ × ℕ)) (v : ℕ) : Prop := ∀ u, u < v → ¬ conn E u v

theorem compsAux_struct {E : List (ℕ × ℕ)} {n : ℕ} (hE : edgesWF E n) :
    ∀ m k V, k + m = n →
      (∀ w, w ∈ V ↔ ∃ u, u < k ∧ conn E u w ∧ w < n) →
      ∃ ls : List ℕ,
        compsAux E n (List.range' k m) V = ls.map (reach E n) ∧
        ls.Nodup ∧
        (∀ v, v ∈ ls ↔ (k ≤ v ∧ v < n ∧ IsLead E v)) := by
  intro m
  induction m with
  | zero =>
    intro k V hk hV
    refine ⟨[], rfl, List.nodup_nil, ?_⟩
    intro v
    simp only [List.not_mem_nil, false_iff]
    rintro ⟨h1, h2, _⟩
    omega
  | succ m ih =>
    intro k V hk hV
    have hkn : k < n := by omega
    rw [show List.range' k (m + 1) = k :: List.range' (k + 1) m from rfl]
    simp only [compsAux]
    by_cases hvk : k ∈ V
    · rw [if_pos hvk]
      obtain ⟨u, hu, huc, _⟩ := (hV k).mp hvk
      have hV2 : ∀ w, w ∈ V ↔ ∃ u2, u2 < k + 1 ∧ conn E u2 w ∧ w < n := by
        intro w
        rw [hV w]
        constructor
        · rintro ⟨u2, h1, h2, h3⟩
          exact ⟨u2, by omega, h2, h3⟩
        · rintro ⟨u2, h1, h2, h3⟩
          rcases Nat.lt_or_ge u2 k with h4 | h4
          · exact ⟨u2, h4, h2, h3⟩
          · have hu2 : u2 = k := by omega
            subst hu2
            exact ⟨u, hu, huc.trans h2, h3⟩
      obtain ⟨ls, hcomp, hnd, hmem⟩ := ih (k + 1) V (by omega) hV2
      refine ⟨ls, hcomp, hnd, ?_⟩
      intro v
      rw [hmem v]
      constructor
      · rintro ⟨h1, h2, h3⟩
        exact ⟨by omega, h2, h3⟩
      · rintro ⟨h1, h2, h3⟩
        rcases Nat.lt_or_ge v (k + 1) with h4 | h4
        · have hvk2 : v = k := by omega
          subst hvk2
          exact absurd huc (h3 u hu)
        · exact ⟨h4, h2, h3⟩
    · rw [if_neg hvk]
      have hlead : IsLead E k := by
        intro u hu hc
        exact hvk ((hV k).mpr ⟨u, hu, hc, hkn⟩)
      have hV2 : ∀ w, w ∈ V ++ reach E n k ↔
          ∃ u2, u2 < k + 1 ∧ conn E u2 w ∧ w < n := by
        intro w
        rw [List.mem_append, hV w, mem_reach_iff hE hkn w]
        constructor
        · rintro (⟨u2, h1, h2, h3⟩ | ⟨h2, h3⟩)
          · exact ⟨u2, by omega, h2, h3⟩
          · exact ⟨k, by omega, h2, h3⟩
        · rintro ⟨u2, h1, h2, h3⟩
          rcases Nat.lt_or_ge u2 k with h4 | h4
          · exact Or.inl ⟨u2, h4, h2, h3⟩
          · have hu2 : u2 = k := by omega
            subst hu2
            exact Or.inr ⟨h2, h3⟩
      obtain ⟨ls, hcomp, hnd, hmem⟩ := ih (k + 1) (V ++ reach E n k) (by omega) hV2
      refine ⟨k :: ls, ?_, ?_, ?_⟩
      · rw [List.map_cons, hcomp]
      · refine List.nodup_cons.mpr ⟨?_, hnd⟩
        intro hkls
        have := (hmem k).mp hkls
        omega
      · intro v
        rw [List.mem_cons, hmem v]
        constructor
        · rintro (rfl | ⟨h1, h2, h3⟩)
          · exact ⟨le_refl _, hkn, hlead⟩
          · exact ⟨by omega, h2, h3⟩
        · rintro ⟨h1, h2, h3⟩
          rcases Nat.lt_or_ge v (k + 1) with h4 | h4
          · left; omega
          · right; exact ⟨h4, h2, h3⟩

/-- The component list is the reach sets of the leaders, in order. -/
theorem componentsList_struct {E : List (ℕ × ℕ)} {n : ℕ} (hE : edgesWF E n) :
    ∃ ls : List ℕ,
      componentsList E n = ls.map (reach E n) ∧
      ls.Nodup ∧
      (∀ v, v ∈ ls ↔ (v < n ∧ IsLead E v)) := by
  have hV : ∀ w : ℕ, w ∈ ([] : List ℕ) ↔ ∃ u, u < 0 ∧ conn E u w ∧ w < n := by
    intro w
    simp only [List.not_mem_nil, false_iff]
    rintro ⟨u, hu, _⟩
    omega
  obtain ⟨ls, h1, h2, h3⟩ := compsAux_struct hE n 0 [] (by omega) hV
  refine ⟨ls, ?_, h2, ?_⟩
  · rw [componentsList, List.range_eq_range']
    exact h1
  · intro v
    rw [h3 v]
    constructor
    · rintro ⟨_, h4, h5⟩
      exact ⟨h4, h5⟩
    · rintro ⟨h4, h5⟩
      exact ⟨Nat.zero_le v, h4, h5⟩

theorem edgesWF_append {E : List (ℕ × ℕ)} {n a b : ℕ} (hE : edgesWF E n)
    (ha : a < n) (hb : b < n) : edgesWF (E ++ [(a, b)]) n := by
  intro e he
  rcases List.mem_append.mp he with h | h
  · exact hE e h
  · rw [List.mem_singleton] at h
    subst h
    exact ⟨ha, hb⟩

/-- Adding an edge between two nodes of different components strictly
decreases the number of components: the scan's leader count is monotone
under edge addition and the larger of the two touched class minima stops
being a leader. -/
theorem componentsList_length_decrease {E : List (ℕ × ℕ)} {n a b : ℕ}
    (hE : edgesWF E n) (ha : a < n) (hb : b < n) (hnc : ¬ conn E a b) :
    (componentsList (E ++ [(a, b)]) n).length <
      (componentsList E n).length := by
  obtain ⟨ls, hc, hnd, hm⟩ := componentsList_struct hE
  have hE2 : edgesWF (E ++ [(a, b)]) n := edgesWF_append hE ha hb
  obtain ⟨ls2, hc2, hnd2, hm2⟩ := componentsList_struct hE2
  rw [hc, hc2, List.length_map, List.length_map]
  have hsub : ∀ v ∈ ls2, v ∈ ls := by
    intro v hv
    obtain ⟨hlt, hld2⟩ := (hm2 v).mp hv
    refine (hm v).mpr ⟨hlt, ?_⟩
    intro u hu hcu
    exact hld2 u hu (conn_mono hcu)
  obtain ⟨ra, hra, hramin⟩ :=
    wellFounded_lt.has_min {x : ℕ | conn E x a} ⟨a, Relation.ReflTransGen.refl⟩
  obtain ⟨rb, hrb, hrbmin⟩ :=
    wellFounded_lt.has_min {x : ℕ | conn E x b} ⟨b, Relation.ReflTransGen.refl⟩
  have hraa : conn E ra a := hra
  have hrbb : conn E rb b := hrb
  have hra_lt : ra < n := conn_lt hE ha (conn_symm hraa)
  have hrb_lt : rb < n := conn_lt hE hb (conn_symm hrbb)
  have hlead_ra : IsLead E ra := by
    intro u hu hcu
    exact hramin u (hcu.trans hraa) hu
  have hlead_rb : IsLead E rb := by
    intro u hu hcu
    exact hrbmin u (hcu.trans hrbb) hu
  have hrne : ra ≠ rb := by
    intro heq
    apply hnc
    exact (conn_symm hraa).trans (heq ▸ hrbb)
  have hconn2ab : conn (E ++ [(a, b)]) ra rb :=
    ((conn_mono hraa).tail (adjProp_append_singleton E a b)).trans
      (conn_symm (conn_mono hrbb))
  -- the larger of the two minima is killed as a leader in the new graph
  have hkill : ∀ w, w ∈ ls → w ∉ ls2 → ls2.length < ls.length := by
    intro w hw hw2
    have hsub2 : ∀ v ∈ ls2, v ∈ ls.erase w := by
      intro v hv
      have hvw : v ≠ w := fun h => hw2 (h ▸ hv)
      exact (List.mem_erase_of_ne hvw).mpr (hsub v hv)
    have hle := (hnd2.subperm hsub2).length_le
    rw [List.length_erase_of_mem hw] at hle
    have hpos : 0 < ls.length := List.length_pos.mpr (List.ne_nil_of_mem hw)
    omega
  rcases Nat.lt_or_ge ra rb with hlt | hge
  · refine hkill rb ((hm rb).mpr ⟨hrb_lt, hlead_rb⟩) ?_
    intro hmem2
    exact ((hm2 rb).mp hmem2).2 ra hlt hconn2ab
  · have hlt : rb < ra := by omega
    refine hkill ra ((hm ra).mpr ⟨hra_lt, hlead_ra⟩) ?_
    intro hmem2
    exact ((hm2 ra).mp hmem2).2 rb hlt (conn_symm hconn2ab)

/-- With at least one node there is at least one component: node `0` is
always a leader. -/
theorem componentsList_length_pos {E : List (ℕ × ℕ)} {n : ℕ}
    (hE : edgesWF E n) (hn : 1 ≤ n) : 1 ≤ (componentsList E n).length := by
  obtain ⟨ls, hc, _, hm⟩ := componentsList_struct hE
  have h0 : 0 ∈ ls := (hm 0).mpr ⟨by omega, fun u hu _ => by omega⟩
  rw [hc, List.length_map]
  exact List.length_pos.mpr (List.ne_nil_of_mem h0)

/-- The component count never exceeds the node count. -/
theorem componentsList_length_le {E : List (ℕ × ℕ)} {n : ℕ}
    (hE : edgesWF E n) : (componentsList E n).length ≤ n := by
  obtain ⟨ls, hc, hnd, hm⟩ := componentsList_struct hE
  rw [hc, List.length_map]
  exact nodup_bounded_length_le hnd fun v hv => ((hm v).mp hv).1

/-! ### The closest-pair scan -/

theorem scanPair_snd_cases (ps : List Point) (st : ℚ × Option (ℕ × ℕ))
    (a b : ℕ) :
    (scanPair ps st a b).2 = st.2 ∨ (scanPair ps st a b).2 = some (a, b) := by
  unfold scanPair
  split_ifs
  · exact Or.inr rfl
  · exact Or.inl rfl

theorem scanPair_keeps_some {ps : List Point} {st : ℚ × Option (ℕ × ℕ)}
    {a b : ℕ} (h : ∃ q, st.2 = some q) :
    ∃ q, (scanPair ps st a b).2 = some q := by
  unfold scanPair
  split_ifs
  · exact ⟨(a, b), rfl⟩
  · exact h

theorem fold_scan_keeps_some (ps : List Point) :
    ∀ (l : List (ℕ × ℕ)) (st : ℚ × Option (ℕ × ℕ)),
      (∃ q, st.2 = some q) →
      ∃ q, (l.foldl (fun st2 p => scanPair ps st2 p.1 p.2) st).2 = some q := by
  intro l
  induction l with
  | nil => intro st h; exact h
  | cons p rest ih =>
    intro st h
    rw [List.foldl_cons]
    exact ih _ (scanPair_keeps_some h)

theorem fold_scan_mem (ps : List Point) :
    ∀ (l : List (ℕ × ℕ)) (st : ℚ × Option (ℕ × ℕ)),
      (l.foldl (fun st2 p => scanPair ps st2 p.1 p.2) st).2 = st.2 ∨
      ∃ q ∈ l, (l.foldl (fun st2 p => scanPair ps st2 p.1 p.2) st).2 = some q := by
  intro l
  induction l with
  | nil => intro st; exact Or.inl rfl
  | cons p rest ih =>
    intro st
    rw [List.foldl_cons]
    rcases ih (scanPair ps st p.1 p.2) with h | ⟨q, hq, h⟩
    · rcases scanPair_snd_cases ps st p.1 p.2 with h2 | h2
      · exact Or.inl (h.trans h2)
      · exact Or.inr ⟨p, List.mem_cons_self p rest, h.trans h2⟩
    · exact Or.inr ⟨q, List.mem_cons_of_mem p hq, h⟩

theorem fold_scan_finds (ps : List Point) :
    ∀ (l : List (ℕ × ℕ)) (st : ℚ × Option (ℕ × ℕ)),
      (st.2 = none → st.1 = F32_MAX ^ 2) →
      (∃ p ∈ l, distSq (ps.getD p.1 default) (ps.getD p.2 default) < F32_MAX ^ 2) →
      ∃ q, (l.foldl (fun st2 p => scanPair ps st2 p.1 p.2) st).2 = some q := by
  intro l
  induction l with
  | nil =>
    intro st _ hex
    obtain ⟨p, hp, _⟩ := hex
    exact absurd hp (List.not_mem_nil p)
  | cons p rest ih =>
    intro st hinv hex
    rw [List.foldl_cons]
    rcases hcase : st.2 with _ | q
    · obtain ⟨p0, hp0, hd0⟩ := hex
      rcases List.mem_cons.mp hp0 with rfl | hp0r
      · have hlt : distSq (ps.getD p0.1 default) (ps.getD p0.2 default) < st.1 := by
          rw [hinv hcase]
          exact hd0
        refine fold_scan_keeps_some ps rest _ ?_
        unfold scanPair
        rw [if_pos hlt]
        exact ⟨(p0.1, p0.2), rfl⟩
      · by_cases hlt : distSq (ps.getD p.1 default) (ps.getD p.2 default) < st.1
        · refine fold_scan_keeps_some ps rest _ ?_
          unfold scanPair
          rw [if_pos hlt]
          exact ⟨(p.1, p.2), rfl⟩
        · have hst : scanPair ps st p.1 p.2 = st := by
            unfold scanPair
            rw [if_neg hlt]
          rw [hst]
          exact ih st hinv ⟨p0, hp0r, hd0⟩
    · exact fold_scan_keeps_some ps rest _ (scanPair_keeps_some ⟨q, hcase⟩)

theorem mem_repairCandidates {A : List ℕ} {Bs : List (List ℕ)} {q : ℕ × ℕ} :
    q ∈ repairCandidates A Bs ↔
      q.1 ∈ A ∧ ∃ isl ∈ Bs, q.2 ∈ isl := by
  unfold repairCandidates
  constructor
  · intro h
    simp only [List.mem_flatMap, List.mem_map] at h
    obtain ⟨isl, hisl, a, hA, b, hB, heq⟩ := h
    subst heq
    exact ⟨hA, isl, hisl, hB⟩
  · rintro ⟨hA, isl, hisl, hB⟩
    simp only [List.mem_flatMap, List.mem_map]
    exact ⟨isl, hisl, q.1, hA, q.2, hB, rfl⟩

/-- When the scan has a candidate below the `f32::MAX` initializer, it
returns a pair, and the pair is one of the scanned candidates. -/
theorem bestEdge_some_mem (ps : List Point) (A : List ℕ) (Bs : List (List ℕ))
    (hex : ∃ p ∈ repairCandidates A Bs,
      distSq (ps.getD p.1 default) (ps.getD p.2 default) < F32_MAX ^ 2) :
    ∃ q ∈ repairCandidates A Bs, (bestEdge ps A Bs).2 = some q := by
  unfold bestEdge
  obtain ⟨q, hq⟩ := fold_scan_finds ps (repairCandidates A Bs)
    (F32_MAX ^ 2, none) (fun _ => rfl) hex
  rcases fold_scan_mem ps (repairCandidates A Bs) (F32_MAX ^ 2, none) with h | h
  · rw [h] at hq
    exact absurd hq (by simp)
  · exact h

/-- Squared distances between in-range generated positions stay below the
squared `f32::MAX` initializer. -/
theorem distSq_lt_f32maxSq {ps : List Point}
    (hb : ∀ p ∈ ps, p.1 ^ 2 ≤ 1 ∧ p.2 ^ 2 ≤ 1) {i j : ℕ}
    (hi : i < ps.length) (hj : j < ps.length) :
    distSq (ps.getD i default) (ps.getD j default) < F32_MAX ^ 2 := by
  have hmem : ∀ {k : ℕ}, k < ps.length → ps.getD k default ∈ ps := by
    intro k hk
    simp only [List.getD_eq_getElem?_getD, List.getElem?_eq_getElem hk,
      Option.getD_some]
    exact List.getElem_mem hk
  obtain ⟨hx1, hy1⟩ := hb _ (hmem hi)
  obtain ⟨hx2, hy2⟩ := hb _ (hmem hj)
  have h8 : (8 : ℚ) < F32_MAX ^ 2 := by norm_num [F32_MAX]
  unfold distSq
  nlinarith [sq_nonneg ((ps.getD i default).1 + (ps.getD j default).1),
    sq_nonneg ((ps.getD i default).2 + (ps.getD j default).2)]

/-! ### The repair loop -/

theorem mem_allPairs {n : ℕ} {p : ℕ × ℕ} (h : p ∈ allPairs n) :
    p.1 < n ∧ p.2 < n := by
  unfold allPairs at h
  simp only [List.mem_flatMap, List.mem_filterMap, List.mem_range] at h
  obtain ⟨i, hi, j, hj, hij⟩ := h
  by_cases hlt : i < j
  · rw [if_pos hlt, Option.some_inj] at hij
    subst hij
    exact ⟨hi, hj⟩
  · rw [if_neg hlt] at hij
    cases hij

theorem proximityEdges_WF (ps : List Point) :
    edgesWF (proximityEdges ps) ps.length := by
  intro e he
  unfold proximityEdges at he
  exact mem_allPairs (List.mem_filter.mp he).1

/-- Core induction: with enough fuel (one unit per component above one),
the repair loop reaches a single component.  Each iteration adds an edge
between a node of component 0 and a node of a later component, strictly
decreasing the component count. -/
theorem repairLoop_connects (ps : List Point)
    (hb : ∀ p ∈ ps, p.1 ^ 2 ≤ 1 ∧ p.2 ^ 2 ≤ 1) :
    ∀ (fuel : ℕ) (E : List (ℕ × ℕ)), edgesWF E ps.length →
      (componentsList E ps.length).length ≤ fuel + 1 → 1 ≤ ps.length →
      (componentsList (repairLoop ps fuel E) ps.length).length = 1 := by
  intro fuel
  induction fuel with
  | zero =>
    intro E hE hcount hn
    have hge := componentsList_length_pos hE hn
    show (componentsList E ps.length).length = 1
    omega
  | succ fuel ih =>
    intro E hE hcount hn
    show (componentsList
      (if (componentsList E ps.length).length ≤ 1 then E
       else
        match (bestEdge ps ((componentsList E ps.length).headD [])
            ((componentsList E ps.length).drop 1)).2 with
        | some (u, v) => repairLoop ps fuel (E ++ [(u, v)])
        | none => E) ps.length).length = 1
    by_cases hle : (componentsList E ps.length).length ≤ 1
    · rw [if_pos hle]
      have hge := componentsList_length_pos hE hn
      omega
    · rw [if_neg hle]
      obtain ⟨ls, hc, hnd, hm⟩ := componentsList_struct hE
      have hls2 : 2 ≤ ls.length := by
        rw [hc, List.length_map] at hle
        omega
      obtain ⟨l0, ls1, rfl⟩ := List.exists_cons_of_ne_nil
        (List.ne_nil_of_length_pos (by omega) : ls ≠ [])
      obtain ⟨l1, ls2, rfl⟩ := List.exists_cons_of_ne_nil
        (List.ne_nil_of_length_pos (by simp at hls2 ⊢; omega) : ls1 ≠ [])
      have hl0 := (hm l0).mp (List.mem_cons_self _ _)
      have hl1 := (hm l1).mp (List.mem_cons_of_mem _ (List.mem_cons_self _ _))
      have hhead : (componentsList E ps.length).headD [] = reach E ps.length l0 := by
        rw [hc]
        rfl
      have hdrop : (componentsList E ps.length).drop 1 =
          (l1 :: ls2).map (reach E ps.length) := by
        rw [hc]
        rfl
      have hcand : (l0, l1) ∈ repairCandidates
          ((componentsList E ps.length).headD [])
          ((componentsList E ps.length).drop 1) := by
        rw [mem_repairCandidates, hhead, hdrop]
        exact ⟨mem_reach_self E ps.length l0,
          reach E ps.length l1, List.mem_map_of_mem _ (List.mem_cons_self _ _),
          mem_reach_self E ps.length l1⟩
      obtain ⟨q, hqmem, hq⟩ := bestEdge_some_mem ps _ _
        ⟨(l0, l1), hcand, distSq_lt_f32maxSq hb hl0.1 hl1.1⟩
      obtain ⟨u, v⟩ := q
      rw [hq]
      -- the chosen pair joins component 0 to a later component
      rw [mem_repairCandidates, hhead, hdrop] at hqmem
      obtain ⟨huA, isl, hisl, hvB⟩ := hqmem
      obtain ⟨lB, hlB, rfl⟩ := List.mem_map.mp hisl
      have hlBls : lB ∈ l0 :: l1 :: ls2 := List.mem_cons_of_mem _ hlB
      have hlBfacts := (hm lB).mp hlBls
      have hu := (mem_reach_iff hE hl0.1 u).mp huA
      have hv := (mem_reach_iff hE hlBfacts.1 v).mp hvB
      have hl0ne : l0 ≠ lB := by
        intro heq
        rw [List.nodup_cons] at hnd
        exact hnd.1 (heq ▸ hlB)
      have hnc : ¬ conn E u v := by
        intro hcuv
        have hconn : conn E l0 lB := (hu.1.trans hcuv).trans (conn_symm hv.1)
        rcases Nat.lt_or_ge l0 lB with hlt | hge2
        · exact hlBfacts.2 l0 hlt hconn
        · have hlt : lB < l0 := by omega
          exact hl0.2 lB hlt (conn_symm hconn)
      have hdec := componentsList_length_decrease hE hu.2 hv.2 hnc
      exact ih (E ++ [(u, v)]) (edgesWF_append hE hu.2 hv.2) (by omega) hn

/-! ## Claim theorems (C4) -/

/-- C4 — confirmed: for every placed position list (at least one node,
coordinates within the sampling square), the generated graph has exactly
one connected component, and every node is BFS-reachable from node `0`.
The repair loop terminates within one iteration per node because each
iteration adds an edge joining component 0 to a later component, which
strictly decreases the component count
(`componentsList_length_decrease`), itself bounded by the node count. -/
theorem c4_generated_graph_connected (ps : List Point) (hne : ps ≠ [])
    (hb : ∀ p ∈ ps, p.1 ^ 2 ≤ 1 ∧ p.2 ^ 2 ≤ 1) :
    (componentsList (generateGraph ps).edges ps.length).length = 1 ∧
    ∀ v < ps.length, v ∈ reach (generateGraph ps).edges ps.length 0 := by
  have hn : 1 ≤ ps.length := List.length_pos.mpr hne
  have hE0 := proximityEdges_WF ps
  have hcount0 : (componentsList (proximityEdges ps) ps.length).length ≤
      ps.length + 1 := le_trans (componentsList_length_le hE0) (by omega)
  have hone : (componentsList (generateGraph ps).edges ps.length).length = 1 :=
    repairLoop_connects ps hb ps.length (proximityEdges ps) hE0 hcount0 hn
  refine ⟨hone, ?_⟩
  intro v hv
  -- the final edge set is wellformed: the loop only adds in-range endpoints
  have hEfin : edgesWF (generateGraph ps).edges ps.length := by
    have hgen : ∀ (fuel : ℕ) (E : List (ℕ × ℕ)), edgesWF E ps.length →
        edgesWF (repairLoop ps fuel E) ps.length := by
      intro fuel
      induction fuel with
      | zero => intro E hE; exact hE
      | succ fuel ih =>
        intro E hE
        show edgesWF
          (if (componentsList E ps.length).length ≤ 1 then E
           else
            match (bestEdge ps ((componentsList E ps.length).headD [])
                ((componentsList E ps.length).drop 1)).2 with
            | some (u, v) => repairLoop ps fuel (E ++ [(u, v)])
            | none => E) ps.length
        by_cases hle : (componentsList E ps.length).length ≤ 1
        · rw [if_pos hle]; exact hE
        · rw [if_neg hle]
          rcases hbe : (bestEdge ps ((componentsList E ps.length).headD [])
              ((componentsList E ps.length).drop 1)).2 with _ | q
          · exact hE
          · obtain ⟨u, v⟩ := q
            refine ih (E ++ [(u, v)]) ?_
            -- the chosen pair comes from the candidate scan over components
            rcases fold_scan_mem ps (repairCandidates
                ((componentsList E ps.length).headD [])
                ((componentsList E ps.length).drop 1)) (F32_MAX ^ 2, none)
              with h | ⟨q2, hq2, h⟩
            · rw [show (bestEdge ps ((componentsList E ps.length).headD [])
                  ((componentsList E ps.length).drop 1)).2 =
                  (F32_MAX ^ 2, (none : Option (ℕ × ℕ))).2 from h] at hbe
              cases hbe
            · rw [show (bestEdge ps ((componentsList E ps.length).headD [])
                  ((componentsList E ps.length).drop 1)).2 = some q2 from h]
                at hbe
              obtain rfl : q2 = (u, v) := by injection hbe
              obtain ⟨ls, hc, hnd, hm⟩ := componentsList_struct hE
              rw [mem_repairCandidates] at hq2
              obtain ⟨huA, isl, hisl, hvB⟩ := hq2
              have hinrange : ∀ w isl2, isl2 ∈ componentsList E ps.length →
                  w ∈ isl2 → w < ps.length := by
                intro w isl2 hisl2 hw
                rw [hc] at hisl2
                obtain ⟨ℓ, hℓ, rfl⟩ := List.mem_map.mp hisl2
                rcases reach_sound hw with ⟨_, hlt | rfl⟩
                · exact hlt
                · exact ((hm w).mp hℓ).1
              have hEne : componentsList E ps.length ≠ [] := by
                intro hempty
                rw [hempty] at hle
                exact hle (by simp)
              have hu : u < ps.length := by
                refine hinrange u ((componentsList E ps.length).headD []) ?_ huA
                rcases hcl : componentsList E ps.length with _ | ⟨c0, cs⟩
                · exact absurd hcl hEne
                · simp
              have hv : v < ps.length :=
                hinrange v isl (List.mem_of_mem_drop hisl) hvB
              exact edgesWF_append hE hu hv
    exact hgen ps.length (proximityEdges ps) hE0
  -- a single component forces the leader list to be exactly [0]
  obtain ⟨ls, hc, hnd, hm⟩ := componentsList_struct hEfin
  have h0mem : 0 ∈ ls := (hm 0).mpr ⟨by omega, fun u hu _ => by omega⟩
  have hlen1 : ls.length = 1 := by
    rw [hc, List.length_map] at hone
    exact hone
  have hls : ls = [0] := by
    rcases ls with _ | ⟨x, rest⟩
    · cases h0mem
    · rcases rest with _ | ⟨y, rest2⟩
      · rw [List.mem_singleton] at h0mem
        rw [h0mem]
      · simp at hlen1
  -- the class minimum of any node is a leader, hence 0
  obtain ⟨r, hr, hrmin⟩ := wellFounded_lt.has_min
    {x : ℕ | conn (generateGraph ps).edges x v} ⟨v, Relation.ReflTransGen.refl⟩
  have hrv : conn (generateGraph ps).edges r v := hr
  have hrlt : r < ps.length := conn_lt hEfin hv (conn_symm hrv)
  have hlead : IsLead (generateGraph ps).edges r := by
    intro u hu hcu
    exact hrmin u (hcu.trans hrv) hu
  have hrls : r ∈ ls := (hm r).mpr ⟨hrlt, hlead⟩
  rw [hls, List.mem_singleton] at hrls
  subst hrls
  exact (mem_reach_iff hEfin (by omega) v).mpr ⟨hrv, hv⟩

/-- Witness for C4 at a concrete two-point placement. -/
theorem c4_generated_graph_connected_witness :
    (componentsList (generateGraph [((0 : ℚ), (0 : ℚ)), ((1 : ℚ), (0 : ℚ))]).edges
      [((0 : ℚ), (0 : ℚ)), ((1 : ℚ), (0 : ℚ))].length).length = 1 := by
  refine (c4_generated_graph_connected [((0 : ℚ), (0 : ℚ)), ((1 : ℚ), (0 : ℚ))]
    (by simp) ?_).1
  intro p hp
  rcases List.mem_cons.mp hp with rfl | hp2
  · norm_num
  · rcases List.mem_singleton.mp hp2 with rfl
    norm_num

/-! ## Claim theorems (C9) -/

/-- Length monotonicity of one placement step. -/
theorem placeStep_length_le (acc : List Point) (c : Point) :
    acc.length ≤ (placeStep acc c).length := by
  unfold placeStep
  split_ifs <;> simp

/-- Length monotonicity of the whole placement fold. -/
theorem foldl_placeStep_length_le (l : List Point) (acc : List Point) :
    acc.length ≤ (l.foldl placeStep acc).length := by
  induction l generalizing acc with
  | nil => exact le_refl _
  | cons c rest ih => exact le_trans (placeStep_length_le acc c) (ih _)

/-- C9 — the claim fails on the code: graph generation has no failure path
at all.  Concrete run: a candidate stream whose second sample collides
with the first places only one node (fewer than 2), yet
`ComputerGraph::random` still returns the degenerate one-node graph and
`setup_game` proceeds, assigning the Player start to node `0` — nothing is
retried or surfaced. -/
theorem c9_degenerate_generation_proceeds :
    (placePositions [((0 : ℚ), (0 : ℚ)), ((0 : ℚ), (0 : ℚ))]).length = 1 ∧
    (randomGraph [((0 : ℚ), (0 : ℚ)), ((0 : ℚ), (0 : ℚ))]).pts.length = 1 ∧
    setupOwnerHp
      (randomGraph [((0 : ℚ), (0 : ℚ)), ((0 : ℚ), (0 : ℚ))]).pts.length 0 =
      (Owner.Player, 100) := by
  have h1 : placePositions [((0 : ℚ), (0 : ℚ)), ((0 : ℚ), (0 : ℚ))] =
      [((0 : ℚ), (0 : ℚ))] := by
    norm_num [placePositions, placeStep, distSq, MIN_DIST, NODE_COUNT]
  have h2 : (randomGraph [((0 : ℚ), (0 : ℚ)), ((0 : ℚ), (0 : ℚ))]).pts =
      placePositions [((0 : ℚ), (0 : ℚ)), ((0 : ℚ), (0 : ℚ))] := rfl
  refine ⟨by rw [h1]; rfl, by rw [h2, h1]; rfl, ?_⟩
  rw [h2, h1]
  rfl

/-- C9 (amended) — generation is total and never fails: whenever at least
one candidate is drawn, at least one node is placed (the first candidate
is always accepted), the generator returns the graph over exactly the
placed positions, and setup proceeds unconditionally, making node `0` the
Player start (with a single node, both start indices coincide and the
Player assignment wins). -/
theorem c9_generation_never_fails (cands : List Point) (h : cands ≠ []) :
    1 ≤ (placePositions cands).length ∧
    (randomGraph cands).pts = placePositions cands ∧
    (∀ k : ℕ, setupOwnerHp k 0 = (Owner.Player, 100)) := by
  refine ⟨?_, rfl, fun k => rfl⟩
  obtain ⟨c, rest, rfl⟩ := List.exists_cons_of_ne_nil h
  have hstep : placeStep [] c = [c] := by
    norm_num [placeStep, NODE_COUNT]
  unfold placePositions
  rw [List.foldl_cons, hstep]
  simpa using foldl_placeStep_length_le rest [c]

/-- Witness for the amended C9 at a one-candidate stream. -/
theorem c9_generation_never_fails_witness :
    1 ≤ (placePositions [((0 : ℚ), (0 : ℚ))]).length ∧
    (randomGraph [((0 : ℚ), (0 : ℚ))]).pts =
      placePositions [((0 : ℚ), (0 : ℚ))] ∧
    (∀ k : ℕ, setupOwnerHp k 0 = (Owner.Player, 100)) := by
  exact c9_generation_never_fails [((0 : ℚ), (0 : ℚ))] (by simp)

end VirusWars
